import Mathlib

/-!
Shallow embedding of the walk-forward backtest engine of this repository
(`futu_autotrade/backtest_batch.py`, `backtest_voter.py`,
`futu_autotrade/backtest_lib.py`) and proofs about the claims of its
specification.

Modelling conventions:
* Python floats are embedded as exact rationals (`ℚ`); the square root and
  real-exponent power used by the metrics are embedded over `ℝ`.
* The external collaborators `build_context` and `safe_eval` are modelled by
  an oracle `ev : ℕ → α → Option Bool`: `ev i e = some b` means evaluating
  rule expression `e` on the window `df[0..i]` returned a value of
  truthiness `b`, and `ev i e = none` means the evaluation raised an
  exception (caught by the engine's `try/except`).  Rule expressions are an
  opaque type `α`, since the engine never inspects them.
* A pandas `Series` with a datetime index is embedded as a list of
  (timestamp, value) pairs; timestamps are integers counting days, so that
  `(index[-1] - index[0]).days` becomes a subtraction.
* `NaN` cells produced by alignment (`Series.add` with `fill_value=nan`) are
  embedded as `Option` values (`none` = NaN) so that `dropna` is a
  `filterMap`.
-/

/-- Side of an executed trade (the Python code uses the strings
`'BUY'` / `'SELL'`). -/
inductive Side where
  | buy
  | sell
deriving DecidableEq

/-- Signal produced from the vote score (strings `'BUY'`/`'SELL'`/`'HOLD'`
in the Python code). -/
inductive Sig where
  | buy
  | sell
  | hold
deriving DecidableEq

/-- One OHLC bar.  Only the fields the engine reads (`time_key`, `high`,
`low`, `close`) are modelled; `open` and `volume` are never used by the
simulation core. -/
structure Bar where
  time : ℤ
  high : ℚ
  low : ℚ
  close : ℚ
deriving DecidableEq

instance : Inhabited Bar := ⟨⟨0, 0, 0, 0⟩⟩

/-- Trade record of `backtest_batch.backtest_symbol`
(`time, side, price, qty, bps, score`). -/
structure TradeB where
  time : ℤ
  side : Side
  price : ℚ
  qty : ℚ
  bps : ℚ
  score : ℚ
deriving DecidableEq

/-- Trade record of `backtest_voter.backtest`
(`time, side, price, qty, score` — no `bps` field). -/
structure TradeV where
  time : ℤ
  side : Side
  price : ℚ
  qty : ℚ
  score : ℚ
deriving DecidableEq

/-- Forgetting the extra `bps` field of a batch trade record. -/
def TradeB.dropBps (t : TradeB) : TradeV :=
  ⟨t.time, t.side, t.price, t.qty, t.score⟩

/-- Loop state of either engine: `cash`, `shares`, `pos` and the
accumulating `trades`, `equity` and `times` lists.  `τ` is the trade-record
type (`TradeB` for the batch engine, `TradeV` for the voter engine). -/
structure St (τ : Type) where
  cash : ℚ
  shares : ℚ
  pos : ℕ
  trades : List τ
  equity : List ℚ
  times : List ℤ
deriving DecidableEq

/-- Initial ledger: `cash = 1.0; shares = 0.0; pos = 0` with empty logs. -/
def initSt (τ : Type) : St τ := ⟨1, 0, 0, [], [], []⟩

/-- `backtest_lib.cost_per_notional_bps`:
`(spread_bps/2.0) + slip_bps + (slip_atr_mult * (atr_pct*1e4))`. -/
def cost_per_notional_bps (atr_pct spread_bps slip_bps slip_atr_mult : ℚ) : ℚ :=
  spread_bps / 2 + slip_bps + slip_atr_mult * (atr_pct * 10000)

/-- True range of bar `i`:
`tr = (high-low).abs().combine((high-close.shift()).abs(), max)
               .combine((low-close.shift()).abs(), max)`.
At `i = 0` the shifted terms are NaN and Python's `max(x, nan)` keeps `x`,
so only `|high - low|` survives. -/
def trueRange (df : List Bar) (i : ℕ) : ℚ :=
  let b := df.getD i default
  if i = 0 then |b.high - b.low|
  else
    let pc := (df.getD (i - 1) default).close
    max (max (|b.high - b.low|) (|b.high - pc|)) (|b.low - pc|)

/-- `atr_pct = (tr.rolling(14).mean() / close).fillna(0.0)`: zero for the
first 13 bars (rolling mean still NaN), then the 14-bar mean of the true
range divided by the close. -/
def atr_pct (df : List Bar) (i : ℕ) : ℚ :=
  if i < 13 then 0
  else (((List.range 14).map fun k => trueRange df (i - k)).sum / 14) /
    (df.getD i default).close

/-- Vote score of one bar: both engines run
`score = 0.0; for expr, w in rules.items(): try: if safe_eval(expr, ctx):
score += w; except Exception: pass`.  `evi e = some true` models a truthy
result, `some false` a falsy one and `none` a raised exception. -/
def scoreAt {α : Type} (rules : List (α × ℚ)) (evi : α → Option Bool) : ℚ :=
  rules.foldl
    (fun s p => match evi p.1 with
      | some true => s + p.2
      | _ => s)
    0

/-- `sig = 'BUY' if score>0 else ('SELL' if score<0 else 'HOLD')`. -/
def sigOf (score : ℚ) : Sig :=
  if 0 < score then Sig.buy else if score < 0 then Sig.sell else Sig.hold

/-- One iteration of the `for i in range(60, len(df))` loop of
`backtest_batch.backtest_symbol`. -/
def stepB {α : Type} (df : List Bar) (rules : List (α × ℚ))
    (ev : ℕ → α → Option Bool) (spread_bps slip_bps slip_atr_mult : ℚ)
    (st : St TradeB) (i : ℕ) : St TradeB :=
  let score := scoreAt rules (ev i)
  let sig := sigOf score
  let px := (df.getD i default).close
  let ts := (df.getD i default).time
  let bps := cost_per_notional_bps (atr_pct df i) spread_bps slip_bps slip_atr_mult
  let st' :=
    if sig = Sig.buy ∧ st.pos = 0 then
      let fee := st.cash * (bps / 10000)
      let qty := (st.cash - fee) / px
      { st with
        shares := st.shares + qty
        cash := st.cash - (qty * px + fee)
        pos := 1
        trades := st.trades ++ [⟨ts, Side.buy, px, qty, bps, score⟩] }
    else if sig = Sig.sell ∧ st.pos = 1 then
      let fee := st.shares * px * (bps / 10000)
      { st with
        cash := st.cash + st.shares * px - fee
        trades := st.trades ++ [⟨ts, Side.sell, px, st.shares, bps, score⟩]
        shares := 0
        pos := 0 }
    else st
  { st' with
    equity := st'.equity ++ [st'.cash + st'.shares * px]
    times := st'.times ++ [ts] }

/-- `backtest_batch.backtest_symbol`: fold the loop body over the indices
`range(60, len(df))` and return `(trades, Series(equity, index=times))`. -/
def backtest_symbol {α : Type} (df : List Bar) (rules : List (α × ℚ))
    (ev : ℕ → α → Option Bool) (spread_bps slip_bps slip_atr_mult : ℚ) :
    List TradeB × List (ℤ × ℚ) :=
  let fin := (List.range' 60 (df.length - 60)).foldl
    (stepB df rules ev spread_bps slip_bps slip_atr_mult) (initSt TradeB)
  (fin.trades, fin.times.zip fin.equity)

/-- One iteration of the `for i in range(60, len(df))` loop of
`backtest_voter.backtest`.  The buy branch first computes `qty = cash/px`,
derives the fee from that quantity, then recomputes
`qty = (cash - fee)/px`. -/
def stepV {α : Type} (df : List Bar) (rules : List (α × ℚ))
    (ev : ℕ → α → Option Bool) (cost_bps : ℚ)
    (st : St TradeV) (i : ℕ) : St TradeV :=
  let score := scoreAt rules (ev i)
  let sig := sigOf score
  let px := (df.getD i default).close
  let ts := (df.getD i default).time
  let st' :=
    if sig = Sig.buy ∧ st.pos = 0 then
      let qty0 := st.cash / px
      let fee := qty0 * px * cost_bps / 10000
      let qty := (st.cash - fee) / px
      { st with
        shares := st.shares + qty
        cash := st.cash - (qty * px + fee)
        pos := 1
        trades := st.trades ++ [⟨ts, Side.buy, px, qty, score⟩] }
    else if sig = Sig.sell ∧ st.pos = 1 then
      let fee := st.shares * px * cost_bps / 10000
      { st with
        cash := st.cash + st.shares * px - fee
        trades := st.trades ++ [⟨ts, Side.sell, px, st.shares, score⟩]
        shares := 0
        pos := 0 }
    else st
  { st' with
    equity := st'.equity ++ [st'.cash + st'.shares * px]
    times := st'.times ++ [ts] }

/-- `backtest_voter.backtest`. -/
def backtest {α : Type} (df : List Bar) (rules : List (α × ℚ))
    (ev : ℕ → α → Option Bool) (cost_bps : ℚ) :
    List TradeV × List (ℤ × ℚ) :=
  let fin := (List.range' 60 (df.length - 60)).foldl
    (stepV df rules ev cost_bps) (initSt TradeV)
  (fin.trades, fin.times.zip fin.equity)

/-- A pandas `Series` with (datetime) index: a list of
(timestamp, value) pairs. -/
abbrev Series := List (ℤ × ℚ)

/-- A series whose cells may be NaN (`none`), as produced by
`Series.add(..., fill_value=np.nan)`. -/
abbrev PSeries := List (ℤ × Option ℚ)

/-- Mean of a list of numbers (`Series.mean()`). -/
def listMean (l : List ℚ) : ℚ := l.sum / l.length

/-- Sample variance with pandas' default `ddof = 1`:
sum of squared deviations divided by `n - 1`. -/
def sampleVar (l : List ℚ) : ℚ :=
  (l.map fun x => (x - listMean l) ^ 2).sum / ((l.length : ℚ) - 1)

/-- `Series.std()`: square root of the `ddof = 1` sample variance. -/
noncomputable def stdDev (l : List ℚ) : ℝ := Real.sqrt ((sampleVar l : ℚ) : ℝ)

/-- `equity.pct_change().fillna(0.0)` on the value list: NaN of the first
entry becomes `0`, each later entry is `v_t / v_(t-1) - 1`. -/
def pct_change_filled : List ℚ → List ℚ
  | [] => []
  | v :: vs => 0 :: List.zipWith (fun a b => b / a - 1) (v :: vs) vs

/-- `Series.cummax()` continued from a running maximum `m`. -/
def cummaxFrom (m : ℚ) : List ℚ → List ℚ
  | [] => []
  | x :: xs => max m x :: cummaxFrom (max m x) xs

/-- `Series.cummax()`: running maximum. -/
def cummax : List ℚ → List ℚ
  | [] => []
  | x :: xs => x :: cummaxFrom x xs

/-- Metrics record returned by `backtest_lib.equity_metrics`
(dict keys `'CAGR', 'Sharpe', 'MDD', 'Vol'`). -/
structure MetricsRec where
  CAGR : ℝ
  Sharpe : ℝ
  MDD : ℝ
  Vol : ℝ

/-- `backtest_lib.equity_metrics`.  The pipeline always calls it with a
datetime index, so `days` is the day difference of the last and first
timestamps; `365.25 = 1461/4` and `1e-9 = 1/10^9` are exact.  `**` is the
real power and `252 ** 0.5` is `√252`. -/
noncomputable def equity_metrics (e : Series) (rf : ℚ) : MetricsRec :=
  if e.length < 2 then ⟨0, 0, 0, 0⟩
  else
    let vals := e.map Prod.snd
    let rets := pct_change_filled vals
    let days : ℤ := (e.getLastD (0, 0)).1 - e.headI.1
    let years : ℚ := max (1 / 1000000000) ((days : ℚ) / (1461 / 4))
    let cagr : ℝ :=
      ((vals.getLastD 0 / max (1 / 1000000000) vals.headI : ℚ) : ℝ) ^
        ((1 : ℝ) / (years : ℝ)) - 1
    let vol : ℝ := stdDev rets * Real.sqrt 252
    let sharpe : ℝ :=
      if vol = 0 then 0 else ((listMean rets : ℝ) * 252 - (rf : ℝ)) / vol
    let dd := List.zipWith (fun v p => v / p - 1) vals (cummax vals)
    let mdd : ℚ := dd.min?.getD 0
    ⟨cagr, sharpe, (mdd : ℝ), vol⟩

/-- Lift a finished per-instrument equity series into a possibly-NaN
series (every cell defined), the state of the `portfolio` accumulator
after its first assignment `portfolio = equity`. -/
def toP (s : Series) : PSeries := s.map fun p => (p.1, some p.2)

/-- `portfolio.add(equity, fill_value=np.nan)` for index-sorted series:
a key of the sorted union of the indices maps to the sum where both sides
are defined and to NaN (`none`) where either side is missing or already
NaN. -/
def mergeAdd (a : PSeries) (b : Series) : PSeries :=
  match a, b with
  | [], [] => []
  | [], q :: bs => (q.1, none) :: mergeAdd [] bs
  | p :: as, [] => (p.1, none) :: mergeAdd as []
  | p :: as, q :: bs =>
    if p.1 < q.1 then (p.1, none) :: mergeAdd as (q :: bs)
    else if q.1 < p.1 then (q.1, none) :: mergeAdd (p :: as) bs
    else (p.1, p.2.map fun v => v + q.2) :: mergeAdd as bs
termination_by a.length + b.length

/-- `(portfolio / n).dropna()`: divide every defined cell by `n`, then
drop the NaN rows. -/
def seriesDivDrop (pf : PSeries) (n : ℕ) : Series :=
  (pf.map fun p => (p.1, p.2.map fun v => v / (n : ℚ))).filterMap
    fun p => p.2.map fun v => (p.1, v)

/-- Portfolio aggregation of `backtest_batch.main`: fold
`portfolio = equity if portfolio is None else portfolio.add(equity,
fill_value=np.nan)` over the per-symbol equity series, then
`(portfolio / len(symbols)).dropna()`; with no symbols there is no
portfolio series. -/
def portfolioEquity (ss : List Series) : Series :=
  match ss with
  | [] => []
  | s :: rest => seriesDivDrop (rest.foldl mergeAdd (toP s)) (s :: rest).length

/-- Value of a series at timestamp `t` (`none` when `t` is not in the
index). -/
def lookupS {α : Type} : List (ℤ × α) → ℤ → Option α
  | [], _ => none
  | p :: s, t => if p.1 = t then some p.2 else lookupS s t

/-- Formalisation of the claim's description of the aggregate: at each
timestamp present in every instrument's series, the per-timestamp sum of
the instrument equities divided by the instrument count; undefined at all
other timestamps (and with no instruments there is no series). -/
def portfolioSpecAt (ss : List Series) (t : ℤ) : Option ℚ :=
  if ss ≠ [] ∧ ∀ s ∈ ss, (lookupS s t).isSome then
    some ((ss.map fun s => (lookupS s t).getD 0).sum / (ss.length : ℚ))
  else none

/-- Concrete bar used by witnesses: unit prices at time 0. -/
def wBar : Bar := ⟨0, 1, 1, 1⟩

/-- One-bar dataframe used by step-level witnesses. -/
def wDf : List Bar := [wBar]

/-- One rule of weight 1 (expressions are opaque, here indexed by `ℕ`). -/
def wRules : List (ℕ × ℚ) := [(0, 1)]

/-- Evaluation oracle on which every rule is truthy on every bar. -/
def wEvTrue : ℕ → ℕ → Option Bool := fun _ _ => some true

/-- Evaluation oracle on which every rule raises on every bar. -/
def wEvNone : ℕ → ℕ → Option Bool := fun _ _ => none

/-- 61 bars with constant unit prices: long enough for the engines'
61-bar warmup to leave exactly one simulated bar (index 60). -/
def wBars61 : List Bar := (List.range 61).map fun k => ⟨(k : ℤ), 1, 1, 1⟩

/-- C4: `cost_per_notional_bps` returns exactly
`spread_bps/2 + slip_bps + slip_atr_mult × atr_pct × 10000` for all inputs,
and in particular returns `0` whenever the three cost parameters are `0`,
for every `atr_pct`. -/
theorem c4_cost_formula (a s l m : ℚ) :
    cost_per_notional_bps a s l m = s / 2 + l + m * a * 10000 ∧
    cost_per_notional_bps a 0 0 0 = 0 := by
  constructor
  · unfold cost_per_notional_bps; ring
  · unfold cost_per_notional_bps; ring

/-- C8 counterexample: the cost model contains no parameter validation and
no raise path (it is a total function of its inputs), so calling it with
the malformed parameter `spread_bps = -1` does not fail fast with a
configuration error: it returns the cost value `-1/2`. -/
theorem c8_counterexample :
    cost_per_notional_bps 0 (-1) 0 0 = -(1 / 2) := by
  unfold cost_per_notional_bps; norm_num

/-- C8 amended: malformed (negative) cost parameters are not rejected;
the cost model still returns `spread_bps/2 + slip_bps +
slip_atr_mult × atr_pct × 10000` (possibly a negative cost), leaving the
caller contract of §4.1 (finite, non-negative inputs) unenforced. -/
theorem c8_no_validation (a s l m : ℚ) (h : s < 0 ∨ l < 0 ∨ m < 0) :
    cost_per_notional_bps a s l m = s / 2 + l + m * a * 10000 := by
  unfold cost_per_notional_bps; ring

/-- Witness for `c8_no_validation` at `spread_bps = -1`. -/
theorem c8_no_validation_witness :
    cost_per_notional_bps 0 (-1) 0 0 = (-1) / 2 + 0 + 0 * 0 * 10000 :=
  c8_no_validation 0 (-1) 0 0 (Or.inl (by norm_num))

/-- C1: on every executed transition of either engine (batch FLAT→LONG,
batch LONG→FLAT, voter FLAT→LONG, voter LONG→FLAT) the ledger satisfies
`cash_after + shares_after × p = cash_before + shares_before × p − f`,
where `p` is the execution price (the bar's close) and `f` is the fee the
code deducts in that branch. -/
theorem c1_cash_conservation {α : Type} (df : List Bar) (rules : List (α × ℚ))
    (ev : ℕ → α → Option Bool) (spread_bps slip_bps slip_atr_mult cost_bps : ℚ)
    (st : St TradeB) (sv : St TradeV) (i : ℕ) :
    ((sigOf (scoreAt rules (ev i)) = Sig.buy → st.pos = 0 →
      (stepB df rules ev spread_bps slip_bps slip_atr_mult st i).cash +
        (stepB df rules ev spread_bps slip_bps slip_atr_mult st i).shares *
          (df.getD i default).close =
      st.cash + st.shares * (df.getD i default).close -
        st.cash *
          (cost_per_notional_bps (atr_pct df i) spread_bps slip_bps slip_atr_mult
            / 10000)) ∧
     (sigOf (scoreAt rules (ev i)) = Sig.sell → st.pos = 1 →
      (stepB df rules ev spread_bps slip_bps slip_atr_mult st i).cash +
        (stepB df rules ev spread_bps slip_bps slip_atr_mult st i).shares *
          (df.getD i default).close =
      st.cash + st.shares * (df.getD i default).close -
        st.shares * (df.getD i default).close *
          (cost_per_notional_bps (atr_pct df i) spread_bps slip_bps slip_atr_mult
            / 10000))) ∧
    ((sigOf (scoreAt rules (ev i)) = Sig.buy → sv.pos = 0 →
      (stepV df rules ev cost_bps sv i).cash +
        (stepV df rules ev cost_bps sv i).shares * (df.getD i default).close =
      sv.cash + sv.shares * (df.getD i default).close -
        sv.cash / (df.getD i default).close * (df.getD i default).close *
          cost_bps / 10000) ∧
     (sigOf (scoreAt rules (ev i)) = Sig.sell → sv.pos = 1 →
      (stepV df rules ev cost_bps sv i).cash +
        (stepV df rules ev cost_bps sv i).shares * (df.getD i default).close =
      sv.cash + sv.shares * (df.getD i default).close -
        sv.shares * (df.getD i default).close * cost_bps / 10000)) := by
  refine ⟨⟨?_, ?_⟩, ?_, ?_⟩ <;> intro hsig hpos <;>
    simp only [stepB, stepV, hsig, hpos] <;> norm_num <;> ring

/-- Witness for `c1_cash_conservation`: the batch buy branch at a
one-bar frame with unit prices. -/
theorem c1_cash_conservation_witness :
    (stepB wDf wRules wEvTrue 0 0 0 (initSt TradeB) 0).cash +
      (stepB wDf wRules wEvTrue 0 0 0 (initSt TradeB) 0).shares *
        (wDf.getD 0 default).close =
    (initSt TradeB).cash + (initSt TradeB).shares * (wDf.getD 0 default).close -
      (initSt TradeB).cash *
        (cost_per_notional_bps (atr_pct wDf 0) 0 0 0 / 10000) :=
  (c1_cash_conservation wDf wRules wEvTrue 0 0 0 0 (initSt TradeB)
    (initSt TradeV) 0).1.1 (by simp [sigOf, scoreAt, wRules, wEvTrue]) rfl

/-- Folding the vote accumulator over rules that all raise leaves the
accumulator unchanged. -/
theorem scoreAt_foldl_none {α : Type} (evi : α → Option Bool) :
    ∀ (l : List (α × ℚ)) (acc : ℚ), (∀ p ∈ l, evi p.1 = none) →
      l.foldl
        (fun s p => match evi p.1 with
          | some true => s + p.2
          | _ => s)
        acc = acc := by
  intro l
  induction l with
  | nil => intro acc _; rfl
  | cons p tl ih =>
    intro acc h
    have hp : evi p.1 = none := h p (List.mem_cons_self p tl)
    simp only [List.foldl_cons, hp]
    exact ih acc fun q hq => h q (List.mem_cons_of_mem p hq)

/-- If every rule of the set raises on a bar, that bar's score is `0`. -/
theorem scoreAt_eq_zero {α : Type} (rules : List (α × ℚ)) (evi : α → Option Bool)
    (h : ∀ p ∈ rules, evi p.1 = none) : scoreAt rules evi = 0 :=
  scoreAt_foldl_none evi rules 0 h

/-- A step taken on a HOLD signal from the flat all-initial state keeps
`cash = 1`, `shares = 0`, `pos = 0`, an empty trade log, and appends only
equity points of value `1`. -/
theorem stepB_hold_run {α : Type} (df : List Bar) (rules : List (α × ℚ))
    (ev : ℕ → α → Option Bool) (spread_bps slip_bps slip_atr_mult : ℚ)
    (h0 : ∀ i, sigOf (scoreAt rules (ev i)) = Sig.hold) :
    ∀ (idxs : List ℕ) (st : St TradeB), st.cash = 1 → st.shares = 0 →
      st.pos = 0 → st.trades = [] → (∀ v ∈ st.equity, v = 1) →
      (idxs.foldl (stepB df rules ev spread_bps slip_bps slip_atr_mult) st).cash = 1 ∧
      (idxs.foldl (stepB df rules ev spread_bps slip_bps slip_atr_mult) st).shares = 0 ∧
      (idxs.foldl (stepB df rules ev spread_bps slip_bps slip_atr_mult) st).pos = 0 ∧
      (idxs.foldl (stepB df rules ev spread_bps slip_bps slip_atr_mult) st).trades = [] ∧
      ∀ v ∈ (idxs.foldl (stepB df rules ev spread_bps slip_bps slip_atr_mult) st).equity,
        v = 1 := by
  intro idxs
  induction idxs with
  | nil => intro st h1 h2 h3 h4 h5; exact ⟨h1, h2, h3, h4, h5⟩
  | cons i tl ih =>
    intro st h1 h2 h3 h4 h5
    simp only [List.foldl_cons]
    refine ih _ ?_ ?_ ?_ ?_ ?_ <;>
      simp only [stepB, h0 i] <;>
      simp [h1, h2, h3, h4]
    intro v hv
    rcases hv with hv | hv
    · exact h5 v hv
    · simpa using hv

/-- C5: a rule whose evaluation raises contributes `0` to the bar's score
(deleting it from the rule set does not change the score, and the engine is
a total function, so the simulation is never aborted); and if every rule
raises on every bar, then every bar's score is `0`, every signal is HOLD,
the trade log of the simulation stays empty, and every equity point equals
the initial cash `1`. -/
theorem c5_failing_rules {α : Type} :
    (∀ (r₁ r₂ : List (α × ℚ)) (e : α) (w : ℚ) (evi : α → Option Bool),
      evi e = none →
      scoreAt (r₁ ++ (e, w) :: r₂) evi = scoreAt (r₁ ++ r₂) evi) ∧
    (∀ (df : List Bar) (rules : List (α × ℚ)) (ev : ℕ → α → Option Bool)
      (spread_bps slip_bps slip_atr_mult : ℚ),
      (∀ i, ∀ p ∈ rules, ev i p.1 = none) →
      (∀ i, scoreAt rules (ev i) = 0) ∧
      (∀ i, sigOf (scoreAt rules (ev i)) = Sig.hold) ∧
      (backtest_symbol df rules ev spread_bps slip_bps slip_atr_mult).1 = [] ∧
      ∀ p ∈ (backtest_symbol df rules ev spread_bps slip_bps slip_atr_mult).2,
        p.2 = 1) := by
  constructor
  · intro r₁ r₂ e w evi h
    simp only [scoreAt, List.foldl_append, List.foldl_cons, h]
  · intro df rules ev spread_bps slip_bps slip_atr_mult h
    have hz : ∀ i, scoreAt rules (ev i) = 0 := fun i =>
      scoreAt_eq_zero rules (ev i) (h i)
    have hh : ∀ i, sigOf (scoreAt rules (ev i)) = Sig.hold := by
      intro i; rw [hz i]; rfl
    have run := stepB_hold_run df rules ev spread_bps slip_bps slip_atr_mult hh
      (List.range' 60 (df.length - 60)) (initSt TradeB)
      rfl rfl rfl rfl (by intro v hv; simp [initSt] at hv)
    refine ⟨hz, hh, run.2.2.2.1, ?_⟩
    intro p hp
    have : p.2 ∈ ((List.range' 60 (df.length - 60)).foldl
        (stepB df rules ev spread_bps slip_bps slip_atr_mult)
        (initSt TradeB)).equity := by
      simpa [backtest_symbol] using (List.of_mem_zip (by simpa [backtest_symbol] using hp)).2
    exact run.2.2.2.2 _ this

/-- Witness for `c5_failing_rules`: with 61 bars and one always-raising
rule the trade log is empty. -/
theorem c5_failing_rules_witness :
    (backtest_symbol wBars61 wRules wEvNone 0 0 0).1 = [] :=
  ((c5_failing_rules.2 wBars61 wRules wEvNone 0 0 0)
    (by intro i p _; rfl)).2.2.1

/-- Shape of the batch step in the FLAT+BUY branch: it appends exactly one
BUY trade and moves the position state to LONG. -/
theorem stepB_buy_eq {α : Type} (df : List Bar) (rules : List (α × ℚ))
    (ev : ℕ → α → Option Bool) (s l m : ℚ) (st : St TradeB) (i : ℕ)
    (hsig : sigOf (scoreAt rules (ev i)) = Sig.buy) (hpos : st.pos = 0) :
    (stepB df rules ev s l m st i).trades =
      st.trades ++ [⟨(df.getD i default).time, Side.buy, (df.getD i default).close,
        (st.cash - st.cash * (cost_per_notional_bps (atr_pct df i) s l m / 10000)) /
          (df.getD i default).close,
        cost_per_notional_bps (atr_pct df i) s l m, scoreAt rules (ev i)⟩] ∧
    (stepB df rules ev s l m st i).pos = 1 := by
  simp [stepB, hsig, hpos]

/-- Shape of the batch step in the LONG+SELL branch: it appends exactly one
SELL trade and moves the position state to FLAT. -/
theorem stepB_sell_eq {α : Type} (df : List Bar) (rules : List (α × ℚ))
    (ev : ℕ → α → Option Bool) (s l m : ℚ) (st : St TradeB) (i : ℕ)
    (hsig : sigOf (scoreAt rules (ev i)) = Sig.sell) (hpos : st.pos = 1) :
    (stepB df rules ev s l m st i).trades =
      st.trades ++ [⟨(df.getD i default).time, Side.sell, (df.getD i default).close,
        st.shares, cost_per_notional_bps (atr_pct df i) s l m,
        scoreAt rules (ev i)⟩] ∧
    (stepB df rules ev s l m st i).pos = 0 := by
  simp [stepB, hsig, hpos]

/-- Shape of the batch step in all remaining signal/state combinations:
cash, shares, position state and the trade log are untouched. -/
theorem stepB_noop_eq {α : Type} (df : List Bar) (rules : List (α × ℚ))
    (ev : ℕ → α → Option Bool) (s l m : ℚ) (st : St TradeB) (i : ℕ)
    (hb : ¬(sigOf (scoreAt rules (ev i)) = Sig.buy ∧ st.pos = 0))
    (hs : ¬(sigOf (scoreAt rules (ev i)) = Sig.sell ∧ st.pos = 1)) :
    (stepB df rules ev s l m st i).cash = st.cash ∧
    (stepB df rules ev s l m st i).shares = st.shares ∧
    (stepB df rules ev s l m st i).pos = st.pos ∧
    (stepB df rules ev s l m st i).trades = st.trades := by
  simp [stepB, hb, hs]

/-- Appending a trade to a log whose first trade is a BUY keeps the first
trade a BUY (and if the log was empty the appended trade must be a BUY). -/
theorem head_append_side (l : List TradeB) (tr : TradeB)
    (h1 : ∀ t ∈ l.head?, t.side = Side.buy)
    (h2 : l = [] → tr.side = Side.buy) :
    ∀ t ∈ (l ++ [tr]).head?, t.side = Side.buy := by
  cases l with
  | nil =>
    intro t ht
    simp only [List.nil_append, List.head?_cons, Option.mem_def,
      Option.some.injEq] at ht
    subst ht
    exact h2 rfl
  | cons a tl =>
    intro t ht
    simp only [List.cons_append, List.head?_cons, Option.mem_def,
      Option.some.injEq] at ht
    subst ht
    exact h1 a rfl

/-- State-machine invariant tying the position state to the trade log:
the recorded sides alternate, the first recorded trade (if any) is a BUY,
and the position is LONG exactly when the last recorded trade is a BUY. -/
def TInvB (st : St TradeB) : Prop :=
  (st.pos = 0 ∨ st.pos = 1) ∧
  List.Chain' (fun a b => a.side ≠ b.side) st.trades ∧
  (∀ t ∈ st.trades.head?, t.side = Side.buy) ∧
  ((st.trades.getLast? = none ∧ st.pos = 0) ∨
   (∃ t, st.trades.getLast? = some t ∧ (st.pos = 1 ↔ t.side = Side.buy)))

/-- The batch step preserves the state-machine invariant. -/
theorem stepB_TInvB {α : Type} (df : List Bar) (rules : List (α × ℚ))
    (ev : ℕ → α → Option Bool) (s l m : ℚ) (st : St TradeB) (i : ℕ)
    (h : TInvB st) : TInvB (stepB df rules ev s l m st i) := by
  obtain ⟨hpos01, hch, hhd, hlast⟩ := h
  by_cases hb : sigOf (scoreAt rules (ev i)) = Sig.buy ∧ st.pos = 0
  · obtain ⟨heq, hp1⟩ := stepB_buy_eq df rules ev s l m st i hb.1 hb.2
    have hlb : ∀ x ∈ st.trades.getLast?, x.side ≠ Side.buy := by
      intro x hx hxb
      rcases hlast with ⟨hnone, _⟩ | ⟨t, hsome, hiff⟩
      · simp [hnone] at hx
      · rw [hsome] at hx
        simp only [Option.mem_def, Option.some.injEq] at hx
        subst hx
        have : st.pos = 1 := hiff.mpr hxb
        rw [hb.2] at this
        exact absurd this (by simp)
    refine ⟨Or.inr hp1, ?_, ?_, ?_⟩
    · rw [heq, List.chain'_append]
      refine ⟨hch, List.chain'_singleton _, ?_⟩
      intro x hx y hy
      simp only [List.head?_cons, Option.mem_def, Option.some.injEq] at hy
      subst hy
      simpa using hlb x hx
    · rw [heq]
      exact head_append_side st.trades _ hhd (fun _ => rfl)
    · exact Or.inr ⟨⟨(df.getD i default).time, Side.buy, (df.getD i default).close,
        (st.cash - st.cash * (cost_per_notional_bps (atr_pct df i) s l m / 10000)) /
          (df.getD i default).close,
        cost_per_notional_bps (atr_pct df i) s l m, scoreAt rules (ev i)⟩,
        by rw [heq]; simp, by simp [hp1]⟩
  · by_cases hs : sigOf (scoreAt rules (ev i)) = Sig.sell ∧ st.pos = 1
    · obtain ⟨heq, hp0⟩ := stepB_sell_eq df rules ev s l m st i hs.1 hs.2
      obtain ⟨t, hsome, hiff⟩ : ∃ t, st.trades.getLast? = some t ∧
          (st.pos = 1 ↔ t.side = Side.buy) := by
        rcases hlast with ⟨_, hp⟩ | h' 
        · rw [hs.2] at hp; exact absurd hp (by simp)
        · exact h'
      have htb : t.side = Side.buy := hiff.mp hs.2
      have hne : st.trades ≠ [] := by
        intro hnil; rw [hnil] at hsome; simp at hsome
      refine ⟨Or.inl hp0, ?_, ?_, ?_⟩
      · rw [heq, List.chain'_append]
        refine ⟨hch, List.chain'_singleton _, ?_⟩
        intro x hx y hy
        simp only [List.head?_cons, Option.mem_def, Option.some.injEq] at hy
        subst hy
        rw [hsome] at hx
        simp only [Option.mem_def, Option.some.injEq] at hx
        subst hx
        simp [htb]
      · rw [heq]
        exact head_append_side st.trades _ hhd (fun hnil => absurd hnil hne)
      · exact Or.inr ⟨⟨(df.getD i default).time, Side.sell, (df.getD i default).close,
          st.shares, cost_per_notional_bps (atr_pct df i) s l m,
          scoreAt rules (ev i)⟩,
          by rw [heq]; simp, by simp [hp0]⟩
    · obtain ⟨_, _, hp, ht⟩ := stepB_noop_eq df rules ev s l m st i hb hs
      exact ⟨hp ▸ hpos01, ht ▸ hch, ht ▸ hhd, by rw [hp, ht]; exact hlast⟩

/-- The state-machine invariant holds after any sequence of batch steps
from the initial flat state. -/
theorem foldl_TInvB {α : Type} (df : List Bar) (rules : List (α × ℚ))
    (ev : ℕ → α → Option Bool) (s l m : ℚ) :
    ∀ (idxs : List ℕ) (st : St TradeB), TInvB st →
      TInvB (idxs.foldl (stepB df rules ev s l m) st) := by
  intro idxs
  induction idxs with
  | nil => intro st h; exact h
  | cons i tl ih =>
    intro st h
    simp only [List.foldl_cons]
    exact ih _ (stepB_TInvB df rules ev s l m st i h)

/-- C2: over any simulation run of the batch engine, the recorded trade
sides alternate and the first trade (if any) is a BUY — so the log never
holds two consecutive BUYs or SELLs; moreover a step on FLAT+BUY emits one
BUY trade moving the state to LONG, a step on LONG+SELL emits one SELL
trade moving the state to FLAT, and every other signal/state combination
leaves cash, shares, position state and the trade log unchanged. -/
theorem c2_state_machine {α : Type} (df : List Bar) (rules : List (α × ℚ))
    (ev : ℕ → α → Option Bool) (s l m : ℚ) :
    (List.Chain' (fun a b => a.side ≠ b.side)
        (backtest_symbol df rules ev s l m).1 ∧
      ∀ t ∈ (backtest_symbol df rules ev s l m).1.head?, t.side = Side.buy) ∧
    (∀ (st : St TradeB) (i : ℕ),
      sigOf (scoreAt rules (ev i)) = Sig.buy → st.pos = 0 →
      (stepB df rules ev s l m st i).pos = 1 ∧
      ∃ tr, (stepB df rules ev s l m st i).trades = st.trades ++ [tr] ∧
        tr.side = Side.buy) ∧
    (∀ (st : St TradeB) (i : ℕ),
      sigOf (scoreAt rules (ev i)) = Sig.sell → st.pos = 1 →
      (stepB df rules ev s l m st i).pos = 0 ∧
      ∃ tr, (stepB df rules ev s l m st i).trades = st.trades ++ [tr] ∧
        tr.side = Side.sell) ∧
    (∀ (st : St TradeB) (i : ℕ),
      ¬(sigOf (scoreAt rules (ev i)) = Sig.buy ∧ st.pos = 0) →
      ¬(sigOf (scoreAt rules (ev i)) = Sig.sell ∧ st.pos = 1) →
      (stepB df rules ev s l m st i).cash = st.cash ∧
      (stepB df rules ev s l m st i).shares = st.shares ∧
      (stepB df rules ev s l m st i).pos = st.pos ∧
      (stepB df rules ev s l m st i).trades = st.trades) := by
  have hinit : TInvB (initSt TradeB) := by
    refine ⟨Or.inl rfl, ?_, ?_, Or.inl ⟨rfl, rfl⟩⟩ <;> simp [initSt]
  have hrun := foldl_TInvB df rules ev s l m
    (List.range' 60 (df.length - 60)) (initSt TradeB) hinit
  refine ⟨⟨?_, ?_⟩, ?_, ?_, ?_⟩
  · simpa [backtest_symbol] using hrun.2.1
  · simpa [backtest_symbol] using hrun.2.2.1
  · intro st i hsig hpos
    obtain ⟨heq, hp⟩ := stepB_buy_eq df rules ev s l m st i hsig hpos
    exact ⟨hp, _, heq, rfl⟩
  · intro st i hsig hpos
    obtain ⟨heq, hp⟩ := stepB_sell_eq df rules ev s l m st i hsig hpos
    exact ⟨hp, _, heq, rfl⟩
  · intro st i hb hs
    exact stepB_noop_eq df rules ev s l m st i hb hs

/-- Witness for `c2_state_machine`: at a HOLD signal the step changes
nothing of the ledger or the trade log. -/
theorem c2_state_machine_witness :
    (stepB wDf wRules wEvNone 0 0 0 (initSt TradeB) 0).trades =
      (initSt TradeB).trades :=
  ((c2_state_machine wDf wRules wEvNone 0 0 0).2.2.2 (initSt TradeB) 0
    (by simp [sigOf, scoreAt, wRules, wEvNone])
    (by simp [sigOf, scoreAt, wRules, wEvNone])).2.2.2

/-- Cash and shares updates of the batch step in the FLAT+BUY branch. -/
theorem stepB_buy_cash_shares {α : Type} (df : List Bar) (rules : List (α × ℚ))
    (ev : ℕ → α → Option Bool) (s l m : ℚ) (st : St TradeB) (i : ℕ)
    (hsig : sigOf (scoreAt rules (ev i)) = Sig.buy) (hpos : st.pos = 0) :
    (stepB df rules ev s l m st i).cash =
      st.cash - ((st.cash - st.cash * (cost_per_notional_bps (atr_pct df i) s l m / 10000)) /
        (df.getD i default).close * (df.getD i default).close +
        st.cash * (cost_per_notional_bps (atr_pct df i) s l m / 10000)) ∧
    (stepB df rules ev s l m st i).shares =
      st.shares + (st.cash - st.cash * (cost_per_notional_bps (atr_pct df i) s l m / 10000)) /
        (df.getD i default).close := by
  simp [stepB, hsig, hpos]

/-- Cash and shares updates of the batch step in the LONG+SELL branch. -/
theorem stepB_sell_cash_shares {α : Type} (df : List Bar) (rules : List (α × ℚ))
    (ev : ℕ → α → Option Bool) (s l m : ℚ) (st : St TradeB) (i : ℕ)
    (hsig : sigOf (scoreAt rules (ev i)) = Sig.sell) (hpos : st.pos = 1) :
    (stepB df rules ev s l m st i).cash =
      st.cash + st.shares * (df.getD i default).close -
        st.shares * (df.getD i default).close *
          (cost_per_notional_bps (atr_pct df i) s l m / 10000) ∧
    (stepB df rules ev s l m st i).shares = 0 := by
  simp [stepB, hsig, hpos]

/-- Ledger invariant of the spec: non-negative cash, non-negative holdings,
no holdings while FLAT, and no recorded trade with a negative quantity. -/
def LedgerInv (st : St TradeB) : Prop :=
  0 ≤ st.cash ∧ 0 ≤ st.shares ∧ (st.pos = 0 → st.shares = 0) ∧
  ∀ t ∈ st.trades, 0 ≤ t.qty

/-- The batch step preserves the ledger invariant, provided the bar's close
price is positive and the per-bar cost does not exceed 10000 bps (a fee of
100% of the traded notional). -/
theorem stepB_LedgerInv {α : Type} (df : List Bar) (rules : List (α × ℚ))
    (ev : ℕ → α → Option Bool) (s l m : ℚ) (st : St TradeB) (i : ℕ)
    (hpx : 0 < (df.getD i default).close)
    (hbps : cost_per_notional_bps (atr_pct df i) s l m ≤ 10000)
    (h : LedgerInv st) : LedgerInv (stepB df rules ev s l m st i) := by
  obtain ⟨hc, hsh, hflat, htr⟩ := h
  by_cases hb : sigOf (scoreAt rules (ev i)) = Sig.buy ∧ st.pos = 0
  · obtain ⟨hcs, hss⟩ := stepB_buy_cash_shares df rules ev s l m st i hb.1 hb.2
    obtain ⟨hts, hp1⟩ := stepB_buy_eq df rules ev s l m st i hb.1 hb.2
    have hdivle : cost_per_notional_bps (atr_pct df i) s l m / 10000 ≤ 1 := by
      rw [div_le_one (by norm_num)]
      exact hbps
    have hfee : st.cash * (cost_per_notional_bps (atr_pct df i) s l m / 10000) ≤ st.cash := by
      calc st.cash * (cost_per_notional_bps (atr_pct df i) s l m / 10000)
          ≤ st.cash * 1 := mul_le_mul_of_nonneg_left hdivle hc
        _ = st.cash := mul_one _
    have hqty : 0 ≤ (st.cash - st.cash * (cost_per_notional_bps (atr_pct df i) s l m / 10000)) /
        (df.getD i default).close :=
      div_nonneg (sub_nonneg.mpr hfee) hpx.le
    have hcash0 : st.cash - ((st.cash - st.cash * (cost_per_notional_bps (atr_pct df i) s l m / 10000)) /
        (df.getD i default).close * (df.getD i default).close +
        st.cash * (cost_per_notional_bps (atr_pct df i) s l m / 10000)) = 0 := by
      rw [div_mul_cancel₀ _ (ne_of_gt hpx)]
      ring
    refine ⟨?_, ?_, ?_, ?_⟩
    · rw [hcs, hcash0]
    · rw [hss]
      exact add_nonneg hsh hqty
    · rw [hp1]
      intro hcontra
      exact absurd hcontra (by norm_num)
    · rw [hts]
      intro t ht
      rcases List.mem_append.mp ht with hmem | hmem
      · exact htr t hmem
      · simp only [List.mem_singleton] at hmem
        subst hmem
        exact hqty
  · by_cases hs : sigOf (scoreAt rules (ev i)) = Sig.sell ∧ st.pos = 1
    · obtain ⟨hcs, hss⟩ := stepB_sell_cash_shares df rules ev s l m st i hs.1 hs.2
      obtain ⟨hts, hp0⟩ := stepB_sell_eq df rules ev s l m st i hs.1 hs.2
      have hnot : 0 ≤ st.shares * (df.getD i default).close := mul_nonneg hsh hpx.le
      have hdivle : cost_per_notional_bps (atr_pct df i) s l m / 10000 ≤ 1 := by
        rw [div_le_one (by norm_num)]
        exact hbps
      have hfee : st.shares * (df.getD i default).close *
          (cost_per_notional_bps (atr_pct df i) s l m / 10000) ≤
          st.shares * (df.getD i default).close := by
        calc st.shares * (df.getD i default).close *
            (cost_per_notional_bps (atr_pct df i) s l m / 10000)
            ≤ st.shares * (df.getD i default).close * 1 :=
              mul_le_mul_of_nonneg_left hdivle hnot
          _ = st.shares * (df.getD i default).close := mul_one _
      refine ⟨?_, ?_, ?_, ?_⟩
      · rw [hcs]
        linarith
      · rw [hss]
      · intro _
        rw [hss]
      · rw [hts]
        intro t ht
        rcases List.mem_append.mp ht with hmem | hmem
        · exact htr t hmem
        · simp only [List.mem_singleton] at hmem
          subst hmem
          exact hsh
    · obtain ⟨h1, h2, h3, h4⟩ := stepB_noop_eq df rules ev s l m st i hb hs
      exact ⟨h1 ▸ hc, h2 ▸ hsh, fun hp => h2 ▸ (hflat (h3 ▸ hp)), h4 ▸ htr⟩

/-- The ledger invariant holds after folding the batch step over any list
of in-range bar indices, under positive closes and the 10000-bps cost
bound. -/
theorem foldl_LedgerInv {α : Type} (df : List Bar) (rules : List (α × ℚ))
    (ev : ℕ → α → Option Bool) (s l m : ℚ)
    (hpx : ∀ b ∈ df, 0 < b.close)
    (hbps : ∀ i, cost_per_notional_bps (atr_pct df i) s l m ≤ 10000) :
    ∀ (idxs : List ℕ) (st : St TradeB), (∀ i ∈ idxs, i < df.length) →
      LedgerInv st → LedgerInv (idxs.foldl (stepB df rules ev s l m) st) := by
  intro idxs
  induction idxs with
  | nil => intro st _ h; exact h
  | cons i tl ih =>
    intro st hin h
    simp only [List.foldl_cons]
    have hi : i < df.length := hin i (List.mem_cons_self i tl)
    have hmem : df.getD i default ∈ df := by
      rw [List.getD_eq_getElem?_getD, List.getElem?_eq_getElem hi]
      exact List.getElem_mem hi
    refine ih _ (fun j hj => hin j (List.mem_cons_of_mem i hj)) ?_
    exact stepB_LedgerInv df rules ev s l m st i (hpx _ hmem) (hbps i) h

/-- C3 (amended): if every bar's close price is positive and the per-bar
cost computed by the cost model never exceeds 10000 bps, then after every
ledger operation of the walk-forward simulation (i.e. after folding the
loop body over any in-range index list, which covers every prefix of the
actual loop) cash is non-negative, holdings are non-negative and zero
whenever the state is FLAT, and no trade records a negative purchased
quantity; in particular every trade of the full `backtest_symbol` run has
a non-negative quantity. -/
theorem c3_ledger_invariant {α : Type} (df : List Bar) (rules : List (α × ℚ))
    (ev : ℕ → α → Option Bool) (s l m : ℚ)
    (hpx : ∀ b ∈ df, 0 < b.close)
    (hbps : ∀ i, cost_per_notional_bps (atr_pct df i) s l m ≤ 10000) :
    (∀ (idxs : List ℕ), (∀ i ∈ idxs, i < df.length) →
      LedgerInv (idxs.foldl (stepB df rules ev s l m) (initSt TradeB))) ∧
    ∀ t ∈ (backtest_symbol df rules ev s l m).1, 0 ≤ t.qty := by
  have hinit : LedgerInv (initSt TradeB) := by
    refine ⟨by norm_num [initSt], by norm_num [initSt], fun _ => rfl, ?_⟩
    intro t ht
    simp [initSt] at ht
  have hmain : ∀ (idxs : List ℕ), (∀ i ∈ idxs, i < df.length) →
      LedgerInv (idxs.foldl (stepB df rules ev s l m) (initSt TradeB)) :=
    fun idxs hin =>
      foldl_LedgerInv df rules ev s l m hpx hbps idxs (initSt TradeB) hin hinit
  refine ⟨hmain, ?_⟩
  intro t ht
  have hrange : ∀ i ∈ List.range' 60 (df.length - 60), i < df.length := by
    intro i hi
    have := List.mem_range'.mp hi
    omega
  have hrun := hmain (List.range' 60 (df.length - 60)) hrange
  exact hrun.2.2.2 t (by simpa [backtest_symbol] using ht)

/-- Witness for `c3_ledger_invariant`: 61 unit-price bars, zero costs,
one always-true rule, after the single simulated bar 60. -/
theorem c3_ledger_invariant_witness :
    LedgerInv ([60].foldl (stepB wBars61 wRules wEvTrue 0 0 0) (initSt TradeB)) :=
  (c3_ledger_invariant wBars61 wRules wEvTrue 0 0 0
    (by
      intro b hb
      simp only [wBars61, List.mem_map, List.mem_range] at hb
      obtain ⟨k, _, rfl⟩ := hb
      norm_num)
    (by
      intro i
      simp only [cost_per_notional_bps]
      norm_num)).1 [60]
    (by
      intro i hi
      simp only [List.mem_singleton] at hi
      subst hi
      have hlen : wBars61.length = 61 := rfl
      omega)

/-- C3 counterexample: with the finite, non-negative cost parameters
`spread_bps = 0, slip_bps = 20000, slip_atr_mult = 0` (a 200% fee), the
first BUY of the simulation deducts a fee larger than the available cash
and records the negative purchased quantity `(cash − fee)/price = −1`,
refuting the claim that the purchased quantity is never negative. -/
theorem c3_counterexample :
    (backtest_symbol wBars61 wRules wEvTrue 0 20000 0).1.map TradeB.qty =
      [-1] ∧ (-1 : ℚ) < 0 := by
  constructor
  · have hlen : List.range' 60 (wBars61.length - 60) = [60] := rfl
    have hsig : sigOf (scoreAt wRules (wEvTrue 60)) = Sig.buy := by
      simp [sigOf, scoreAt, wRules, wEvTrue]
    have hpos : (initSt TradeB).pos = 0 := rfl
    obtain ⟨hts, _⟩ :=
      stepB_buy_eq wBars61 wRules wEvTrue 0 20000 0 (initSt TradeB) 60 hsig hpos
    have hfold : (backtest_symbol wBars61 wRules wEvTrue 0 20000 0).1 =
        (stepB wBars61 wRules wEvTrue 0 20000 0 (initSt TradeB) 60).trades := by
      simp [backtest_symbol, hlen]
    rw [hfold, hts]
    have hclose : (wBars61.getD 60 default).close = 1 := rfl
    have hbps : cost_per_notional_bps (atr_pct wBars61 60) 0 20000 0 = 20000 := by
      simp [cost_per_notional_bps]
    simp only [initSt, hclose, hbps, List.nil_append, List.map_cons, List.map_nil]
    norm_num
  · norm_num

/-- View of a batch-engine state as a voter-engine state: identical ledger
and series, trade records with the `bps` field dropped. -/
def StB2V (st : St TradeB) : St TradeV :=
  ⟨st.cash, st.shares, st.pos, st.trades.map TradeB.dropBps, st.equity, st.times⟩

/-- With `spread_bps = 0` and `slip_atr_mult = 0`, the dynamic per-bar cost
of the batch engine is the constant `slip_bps`, whatever the ATR. -/
theorem cost_const (a c : ℚ) : cost_per_notional_bps a 0 c 0 = c := by
  unfold cost_per_notional_bps
  ring

/-- One voter step agrees with one batch step run at
`spread_bps = 0, slip_bps = c, slip_atr_mult = 0`, through `StB2V`,
whenever the bar's close price is non-zero (at a zero close both Python
engines raise `ZeroDivisionError`, so no diverging output exists). -/
theorem stepV_eq_stepB {α : Type} (df : List Bar) (rules : List (α × ℚ))
    (ev : ℕ → α → Option Bool) (c : ℚ) (st : St TradeB) (i : ℕ)
    (hpx : (df.getD i default).close ≠ 0) :
    stepV df rules ev c (StB2V st) i = StB2V (stepB df rules ev 0 c 0 st i) := by
  by_cases hb : sigOf (scoreAt rules (ev i)) = Sig.buy ∧ st.pos = 0
  · rw [List.getD_eq_getElem?_getD] at hpx
    have hcancel : st.cash / (df[i]?.getD default).close * (df[i]?.getD default).close
        = st.cash := div_mul_cancel₀ _ hpx
    simp [stepV, stepB, StB2V, hb.1, hb.2, cost_const, TradeB.dropBps]
    refine ⟨?_, ?_, ?_⟩ <;> rw [hcancel] <;> ring
  · by_cases hs : sigOf (scoreAt rules (ev i)) = Sig.sell ∧ st.pos = 1
    · simp [stepV, stepB, StB2V, hs.1, hs.2, cost_const, TradeB.dropBps]
      ring
    · have hb' : ¬(sigOf (scoreAt rules (ev i)) = Sig.buy ∧ (StB2V st).pos = 0) := hb
      have hs' : ¬(sigOf (scoreAt rules (ev i)) = Sig.sell ∧ (StB2V st).pos = 1) := hs
      simp only [stepV, stepB, StB2V, if_neg hb, if_neg hs, if_neg hb', if_neg hs']

/-- The voter/batch step agreement extends through any fold over in-range
bar indices. -/
theorem foldl_V_eq_B {α : Type} (df : List Bar) (rules : List (α × ℚ))
    (ev : ℕ → α → Option Bool) (c : ℚ)
    (hclose : ∀ b ∈ df, b.close ≠ 0) :
    ∀ (idxs : List ℕ) (st : St TradeB), (∀ i ∈ idxs, i < df.length) →
      idxs.foldl (stepV df rules ev c) (StB2V st) =
        StB2V (idxs.foldl (stepB df rules ev 0 c 0) st) := by
  intro idxs
  induction idxs with
  | nil => intro st _; rfl
  | cons i tl ih =>
    intro st hin
    have hi : i < df.length := hin i (List.mem_cons_self i tl)
    have hmem : df.getD i default ∈ df := by
      rw [List.getD_eq_getElem?_getD, List.getElem?_eq_getElem hi]
      exact List.getElem_mem hi
    simp only [List.foldl_cons]
    rw [stepV_eq_stepB df rules ev c st i (hclose _ hmem)]
    exact ih _ fun j hj => hin j (List.mem_cons_of_mem i hj)

/-- C10: for every bar frame, rule set, evaluation oracle and cost level
`c ≥ 0`, the voter engine run at `cost_bps = c` and the batch engine run at
`spread_bps = 0, slip_bps = c, slip_atr_mult = 0` return the identical
equity series and identical trade logs up to the extra `bps` field recorded
only by the batch engine (bars with a zero close are excluded: on them both
Python engines raise `ZeroDivisionError` rather than produce output). -/
theorem c10_engines_equiv {α : Type} (df : List Bar) (rules : List (α × ℚ))
    (ev : ℕ → α → Option Bool) (c : ℚ) (hc : 0 ≤ c)
    (hclose : ∀ b ∈ df, b.close ≠ 0) :
    backtest df rules ev c =
      ((backtest_symbol df rules ev 0 c 0).1.map TradeB.dropBps,
       (backtest_symbol df rules ev 0 c 0).2) := by
  have hrange : ∀ i ∈ List.range' 60 (df.length - 60), i < df.length := by
    intro i hi
    have := List.mem_range'.mp hi
    omega
  have hinit : initSt TradeV = StB2V (initSt TradeB) := rfl
  have hfold := foldl_V_eq_B df rules ev c hclose
    (List.range' 60 (df.length - 60)) (initSt TradeB) hrange
  simp only [backtest, backtest_symbol]
  rw [hinit, hfold]
  rfl

/-- Witness for `c10_engines_equiv`: 61 unit-price bars, one always-true
rule, 5 bps cost. -/
theorem c10_engines_equiv_witness :
    backtest wBars61 wRules wEvTrue 5 =
      ((backtest_symbol wBars61 wRules wEvTrue 0 5 0).1.map TradeB.dropBps,
       (backtest_symbol wBars61 wRules wEvTrue 0 5 0).2) :=
  c10_engines_equiv wBars61 wRules wEvTrue 5 (by norm_num)
    (by
      intro b hb
      simp only [wBars61, List.mem_map, List.mem_range] at hb
      obtain ⟨k, _, rfl⟩ := hb
      norm_num)

/-- Per-step simple returns continued from a previous equity value, as the
claim words them: `r_t = equity_t / equity_(t-1) - 1`. -/
def specReturnsFrom (prev : ℚ) : List ℚ → List ℚ
  | [] => []
  | x :: xs => (x / prev - 1) :: specReturnsFrom x xs

/-- The claim's per-step simple returns of an equity value list: the first
return is taken as `0`, every later one is `r_t = equity_t/equity_(t-1) - 1`. -/
def specReturns : List ℚ → List ℚ
  | [] => []
  | v :: vs => 0 :: specReturnsFrom v vs

/-- The continued spec returns agree with the `zipWith` form of
`pct_change`. -/
theorem specReturnsFrom_eq_zipWith (l : List ℚ) :
    ∀ prev, specReturnsFrom prev l =
      List.zipWith (fun a b => b / a - 1) (prev :: l) l := by
  induction l with
  | nil => intro prev; rfl
  | cons x xs ih =>
    intro prev
    simp only [specReturnsFrom, List.zipWith]
    exact congrArg _ (ih x)

/-- The claim's returns definition coincides with the embedded
`pct_change().fillna(0.0)`. -/
theorem specReturns_eq (l : List ℚ) : specReturns l = pct_change_filled l := by
  cases l with
  | nil => rfl
  | cons v vs =>
    simp only [specReturns, pct_change_filled]
    exact congrArg _ (specReturnsFrom_eq_zipWith vs v)

/-- C6: for every equity series with at least two points, `equity_metrics`
returns `Vol` equal to the (sample) standard deviation of the per-step
simple returns (first return `0`) scaled by `√252`, and `Sharpe` equal to
`(mean(returns)·252 − rf)/Vol` when `Vol > 0` and `0` otherwise. -/
theorem c6_vol_sharpe (e : Series) (rf : ℚ) (h : 2 ≤ e.length) :
    (equity_metrics e rf).Vol =
      stdDev (specReturns (e.map Prod.snd)) * Real.sqrt 252 ∧
    (equity_metrics e rf).Sharpe =
      if 0 < stdDev (specReturns (e.map Prod.snd)) * Real.sqrt 252 then
        ((listMean (specReturns (e.map Prod.snd)) : ℝ) * 252 - (rf : ℝ)) /
          (stdDev (specReturns (e.map Prod.snd)) * Real.sqrt 252)
      else 0 := by
  have hnl : ¬(e.length < 2) := not_lt.mpr h
  rw [specReturns_eq]
  simp only [equity_metrics, if_neg hnl]
  refine ⟨by trivial, ?_⟩
  have hv0 : 0 ≤ stdDev (pct_change_filled (e.map Prod.snd)) * Real.sqrt 252 :=
    mul_nonneg (Real.sqrt_nonneg _) (Real.sqrt_nonneg _)
  by_cases hz : stdDev (pct_change_filled (e.map Prod.snd)) * Real.sqrt 252 = 0
  · simp [hz]
  · have hpos : 0 < stdDev (pct_change_filled (e.map Prod.snd)) * Real.sqrt 252 :=
      lt_of_le_of_ne hv0 (Ne.symm hz)
    simp [hz, hpos]

/-- Witness for `c6_vol_sharpe`: the two-point series `[(0,1), (1,2)]`. -/
theorem c6_vol_sharpe_witness :
    (equity_metrics [((0 : ℤ), (1 : ℚ)), (1, 2)] 0).Vol =
      stdDev (specReturns ([((0 : ℤ), (1 : ℚ)), (1, 2)].map Prod.snd)) *
        Real.sqrt 252 :=
  (c6_vol_sharpe [((0 : ℤ), (1 : ℚ)), (1, 2)] 0 (by simp)).1

/-- Pandas `add` with `fill_value=nan` at one aligned cell: absent on both
sides stays absent, defined on both sides is summed (NaN-propagating), and
a cell present on one side only becomes NaN. -/
def addAligned (x : Option (Option ℚ)) (y : Option ℚ) : Option (Option ℚ) :=
  match x, y with
  | none, none => none
  | some v, some w => some (v.map fun a => a + w)
  | some _, none => some none
  | none, some _ => some none

/-- Adding a series to its own lifted copy doubles every cell. -/
theorem mergeAdd_toP_self (E : Series) :
    mergeAdd (toP E) E = E.map fun p => (p.1, some (p.2 + p.2)) := by
  induction E with
  | nil => simp [toP, mergeAdd]
  | cons p tl ih =>
    simp only [toP, List.map_cons] at ih ⊢
    simp only [mergeAdd, lt_irrefl, if_false]
    rw [ih]
    rfl

/-- Halving a doubled series restores it. -/
theorem seriesDivDrop_double (E : Series) :
    seriesDivDrop (E.map fun p => (p.1, some (p.2 + p.2))) 2 = E := by
  induction E with
  | nil => rfl
  | cons p tl ih =>
    simp only [List.map_cons, seriesDivDrop, List.filterMap_cons,
      Option.map_some'] at ih ⊢
    rw [show (p.2 + p.2) / ((2 : ℕ) : ℚ) = p.2 by push_cast; ring]
    rw [ih]

/-- Strictly increasing (hence duplicate-free) timestamp index, the shape
pandas datetime indices have here. -/
def SortedKeys {γ : Type} (s : List (ℤ × γ)) : Prop :=
  List.Pairwise (fun a b => a < b) (s.map Prod.fst)

/-- A timestamp matching no key of the series has no value. -/
theorem lookupS_eq_none {γ : Type} (s : List (ℤ × γ)) (t : ℤ)
    (h : ∀ p ∈ s, p.1 ≠ t) : lookupS s t = none := by
  induction s with
  | nil => rfl
  | cons p tl ih =>
    simp only [lookupS, if_neg (h p (List.mem_cons_self p tl))]
    exact ih fun q hq => h q (List.mem_cons_of_mem p hq)

/-- Tail of a sorted series is sorted, and its head key bounds every tail
key. -/
theorem SortedKeys_cons {γ : Type} (p : ℤ × γ) (tl : List (ℤ × γ))
    (h : SortedKeys (p :: tl)) :
    SortedKeys tl ∧ ∀ q ∈ tl, p.1 < q.1 := by
  simp only [SortedKeys, List.map_cons, List.pairwise_cons] at h
  refine ⟨h.2, ?_⟩
  intro q hq
  exact h.1 q.1 (List.mem_map_of_mem Prod.fst hq)

/-- Alignment lemma for `mergeAdd` on sorted series: the value at any
timestamp is the `addAligned` combination of the two sides' values. -/
theorem lookupS_mergeAdd (a : PSeries) (b : Series) :
    SortedKeys a → SortedKeys b → ∀ t : ℤ,
      lookupS (mergeAdd a b) t = addAligned (lookupS a t) (lookupS b t) := by
  induction a, b using mergeAdd.induct with
  | case1 =>
    intro _ _ t
    simp [mergeAdd, lookupS, addAligned]
  | case2 q bs ih =>
    intro ha hb t
    obtain ⟨hb', hqlt⟩ := SortedKeys_cons q bs hb
    simp only [mergeAdd, lookupS]
    by_cases hq : q.1 = t
    · simp [hq, addAligned]
    · simp only [if_neg hq]
      exact ih ha hb' t
  | case3 p as ih =>
    intro ha hb t
    obtain ⟨ha', _⟩ := SortedKeys_cons p as ha
    simp only [mergeAdd, lookupS]
    by_cases hp : p.1 = t
    · simp [hp, addAligned]
    · simp only [if_neg hp]
      exact ih ha' hb t
  | case4 p as q bs hlt ih =>
    intro ha hb t
    obtain ⟨ha', _⟩ := SortedKeys_cons p as ha
    obtain ⟨hb', hqlt⟩ := SortedKeys_cons q bs hb
    simp only [mergeAdd, if_pos hlt]
    by_cases hp : p.1 = t
    · have hbnone : lookupS (q :: bs) t = none := by
        apply lookupS_eq_none
        intro r hr
        rcases List.mem_cons.mp hr with hr | hr
        · subst hr
          omega
        · have := hqlt r hr
          omega
      rw [show lookupS ((p.1, none) :: mergeAdd as (q :: bs)) t = some none by
            simp [lookupS, hp],
          show lookupS (p :: as) t = some p.2 by simp [lookupS, hp], hbnone]
      rfl
    · rw [show lookupS ((p.1, none) :: mergeAdd as (q :: bs)) t =
            lookupS (mergeAdd as (q :: bs)) t by simp [lookupS, hp],
          show lookupS (p :: as) t = lookupS as t by simp [lookupS, hp]]
      exact ih ha' hb t
  | case5 p as q bs hnlt hlt ih =>
    intro ha hb t
    obtain ⟨ha', hplt⟩ := SortedKeys_cons p as ha
    obtain ⟨hb', _⟩ := SortedKeys_cons q bs hb
    simp only [mergeAdd, if_neg hnlt, if_pos hlt]
    by_cases hq : q.1 = t
    · have hanone : lookupS (p :: as) t = none := by
        apply lookupS_eq_none
        intro r hr
        rcases List.mem_cons.mp hr with hr | hr
        · subst hr
          omega
        · have := hplt r hr
          omega
      rw [show lookupS ((q.1, none) :: mergeAdd (p :: as) bs) t = some none by
            simp [lookupS, hq],
          show lookupS (q :: bs) t = some q.2 by simp [lookupS, hq], hanone]
      rfl
    · rw [show lookupS ((q.1, none) :: mergeAdd (p :: as) bs) t =
            lookupS (mergeAdd (p :: as) bs) t by simp [lookupS, hq],
          show lookupS (q :: bs) t = lookupS bs t by simp [lookupS, hq]]
      exact ih ha hb' t
  | case6 p as q bs hnlt hnlt' ih =>
    intro ha hb t
    obtain ⟨ha', _⟩ := SortedKeys_cons p as ha
    obtain ⟨hb', _⟩ := SortedKeys_cons q bs hb
    have hpq : p.1 = q.1 := by omega
    simp only [mergeAdd, if_neg hnlt, if_neg hnlt', lookupS]
    by_cases hp : p.1 = t
    · simp [hp, ← hpq, addAligned]
    · have hq : ¬(q.1 = t) := by omega
      simp only [if_neg hp, if_neg hq]
      exact ih ha' hb' t

/-- `mergeAdd` of sorted series is sorted, and introduces no new
timestamps. -/
theorem mergeAdd_sorted_sub (a : PSeries) (b : Series) :
    SortedKeys a → SortedKeys b →
      SortedKeys (mergeAdd a b) ∧
      ∀ k ∈ (mergeAdd a b).map Prod.fst,
        k ∈ a.map Prod.fst ∨ k ∈ b.map Prod.fst := by
  induction a, b using mergeAdd.induct with
  | case1 =>
    intro _ _
    refine ⟨?_, ?_⟩ <;> simp [mergeAdd, SortedKeys]
  | case2 q bs ih =>
    intro ha hb
    obtain ⟨hb', hqlt⟩ := SortedKeys_cons q bs hb
    obtain ⟨ihs, ihk⟩ := ih ha hb'
    simp only [mergeAdd]
    constructor
    · simp only [SortedKeys, List.map_cons, List.pairwise_cons]
      refine ⟨?_, ihs⟩
      intro k hk
      rcases ihk k hk with hk' | hk'
      · simp at hk'
      · obtain ⟨r, hr, rfl⟩ := List.mem_map.mp hk'
        exact hqlt r hr
    · intro k hk
      simp only [List.map_cons, List.mem_cons] at hk ⊢
      rcases hk with hk | hk
      · exact Or.inr (Or.inl hk)
      · rcases ihk k hk with hk' | hk'
        · simp at hk'
        · exact Or.inr (Or.inr (by simpa using hk'))
  | case3 p as ih =>
    intro ha hb
    obtain ⟨ha', hplt⟩ := SortedKeys_cons p as ha
    obtain ⟨ihs, ihk⟩ := ih ha' hb
    simp only [mergeAdd]
    constructor
    · simp only [SortedKeys, List.map_cons, List.pairwise_cons]
      refine ⟨?_, ihs⟩
      intro k hk
      rcases ihk k hk with hk' | hk'
      · obtain ⟨r, hr, rfl⟩ := List.mem_map.mp hk'
        exact hplt r hr
      · simp at hk'
    · intro k hk
      simp only [List.map_cons, List.mem_cons] at hk ⊢
      rcases hk with hk | hk
      · exact Or.inl (Or.inl hk)
      · rcases ihk k hk with hk' | hk'
        · exact Or.inl (Or.inr (by simpa using hk'))
        · simp at hk'
  | case4 p as q bs hlt ih =>
    intro ha hb
    obtain ⟨ha', hplt⟩ := SortedKeys_cons p as ha
    obtain ⟨hb', hqlt⟩ := SortedKeys_cons q bs hb
    obtain ⟨ihs, ihk⟩ := ih ha' hb
    simp only [mergeAdd, if_pos hlt]
    constructor
    · simp only [SortedKeys, List.map_cons, List.pairwise_cons]
      refine ⟨?_, ihs⟩
      intro k hk
      rcases ihk k hk with hk' | hk'
      · obtain ⟨r, hr, rfl⟩ := List.mem_map.mp hk'
        exact hplt r hr
      · simp only [List.map_cons, List.mem_cons] at hk'
        rcases hk' with hk' | hk'
        · omega
        · obtain ⟨r, hr, rfl⟩ := List.mem_map.mp hk'
          have := hqlt r hr
          omega
    · intro k hk
      simp only [List.map_cons, List.mem_cons] at hk ⊢
      rcases hk with hk | hk
      · exact Or.inl (Or.inl hk)
      · rcases ihk k hk with hk' | hk'
        · exact Or.inl (Or.inr hk')
        · simp only [List.map_cons, List.mem_cons] at hk'
          exact Or.inr hk'
  | case5 p as q bs hnlt hlt ih =>
    intro ha hb
    obtain ⟨ha', hplt⟩ := SortedKeys_cons p as ha
    obtain ⟨hb', hqlt⟩ := SortedKeys_cons q bs hb
    obtain ⟨ihs, ihk⟩ := ih ha hb'
    simp only [mergeAdd, if_neg hnlt, if_pos hlt]
    constructor
    · simp only [SortedKeys, List.map_cons, List.pairwise_cons]
      refine ⟨?_, ihs⟩
      intro k hk
      rcases ihk k hk with hk' | hk'
      · simp only [List.map_cons, List.mem_cons] at hk'
        rcases hk' with hk' | hk'
        · omega
        · obtain ⟨r, hr, rfl⟩ := List.mem_map.mp hk'
          have := hplt r hr
          omega
      · obtain ⟨r, hr, rfl⟩ := List.mem_map.mp hk'
        exact hqlt r hr
    · intro k hk
      simp only [List.map_cons, List.mem_cons] at hk ⊢
      rcases hk with hk | hk
      · exact Or.inr (Or.inl hk)
      · rcases ihk k hk with hk' | hk'
        · simp only [List.map_cons, List.mem_cons] at hk'
          exact Or.inl hk'
        · exact Or.inr (Or.inr hk')
  | case6 p as q bs hnlt hnlt' ih =>
    intro ha hb
    obtain ⟨ha', hplt⟩ := SortedKeys_cons p as ha
    obtain ⟨hb', hqlt⟩ := SortedKeys_cons q bs hb
    obtain ⟨ihs, ihk⟩ := ih ha' hb'
    have hpq : p.1 = q.1 := by omega
    simp only [mergeAdd, if_neg hnlt, if_neg hnlt']
    constructor
    · simp only [SortedKeys, List.map_cons, List.pairwise_cons]
      refine ⟨?_, ihs⟩
      intro k hk
      rcases ihk k hk with hk' | hk'
      · obtain ⟨r, hr, rfl⟩ := List.mem_map.mp hk'
        exact hplt r hr
      · obtain ⟨r, hr, rfl⟩ := List.mem_map.mp hk'
        have := hqlt r hr
        omega
    · intro k hk
      simp only [List.map_cons, List.mem_cons] at hk ⊢
      rcases hk with hk | hk
      · exact Or.inl (Or.inl hk)
      · rcases ihk k hk with hk' | hk'
        · exact Or.inl (Or.inr hk')
        · exact Or.inr (Or.inr hk')

/-- Folding `mergeAdd` over sorted per-instrument series keeps the
accumulator sorted and computes, at each timestamp, the `addAligned` fold
of the per-instrument values. -/
theorem foldl_mergeAdd_lookup (ss : List Series) :
    ∀ (pf : PSeries), SortedKeys pf → (∀ s ∈ ss, SortedKeys s) →
      SortedKeys (ss.foldl mergeAdd pf) ∧
      ∀ t : ℤ, lookupS (ss.foldl mergeAdd pf) t =
        ss.foldl (fun acc s => addAligned acc (lookupS s t)) (lookupS pf t) := by
  induction ss with
  | nil => intro pf hpf _; exact ⟨hpf, fun t => rfl⟩
  | cons s tl ih =>
    intro pf hpf hss
    have hs : SortedKeys s := hss s (List.mem_cons_self s tl)
    have hsorted : SortedKeys (mergeAdd pf s) :=
      (mergeAdd_sorted_sub pf s hpf hs).1
    have htl : ∀ r ∈ tl, SortedKeys r := fun r hr =>
      hss r (List.mem_cons_of_mem s hr)
    obtain ⟨ihs, ihl⟩ := ih (mergeAdd pf s) hsorted htl
    refine ⟨by simpa using ihs, ?_⟩
    intro t
    simp only [List.foldl_cons]
    rw [ihl t, lookupS_mergeAdd pf s hpf hs t]

/-- The timestamps of `(portfolio / n).dropna()` all come from the
accumulated portfolio. -/
theorem seriesDivDrop_keys_sub (pf : PSeries) (n : ℕ) :
    ∀ k ∈ (seriesDivDrop pf n).map Prod.fst, k ∈ pf.map Prod.fst := by
  intro k hk
  obtain ⟨r, hr, rfl⟩ := List.mem_map.mp hk
  obtain ⟨q, hq, hqr⟩ := List.mem_filterMap.mp hr
  obtain ⟨p, hp, rfl⟩ := List.mem_map.mp hq
  simp only at hqr
  rcases hmap : Option.map (fun v => v / (n : ℚ)) p.2 with _ | w
  · rw [hmap] at hqr
    simp at hqr
  · rw [hmap] at hqr
    simp only [Option.map_some', Option.some.injEq] at hqr
    subst hqr
    exact List.mem_map_of_mem Prod.fst hp

/-- Value of `(portfolio / n).dropna()` at a timestamp: defined cells are
divided by `n`, NaN cells and absent timestamps yield nothing. -/
theorem lookupS_seriesDivDrop (pf : PSeries) (n : ℕ) :
    SortedKeys pf → ∀ t : ℤ,
      lookupS (seriesDivDrop pf n) t =
        ((lookupS pf t).bind fun x => x).map fun v => v / (n : ℚ) := by
  induction pf with
  | nil => intro _ t; rfl
  | cons p tl ih =>
    intro h t
    obtain ⟨h', hplt⟩ := SortedKeys_cons p tl h
    by_cases hp : p.1 = t
    · cases hv : p.2 with
      | none =>
        have habsent : lookupS (seriesDivDrop tl n) t = none := by
          apply lookupS_eq_none
          intro r hr
          have hk := seriesDivDrop_keys_sub tl n r.1 (List.mem_map_of_mem Prod.fst hr)
          obtain ⟨q, hq, hqk⟩ := List.mem_map.mp hk
          have := hplt q hq
          omega
        have hstep : lookupS (seriesDivDrop (p :: tl) n) t =
            lookupS (seriesDivDrop tl n) t := by
          simp [seriesDivDrop, hv, List.filterMap_cons]
        rw [show lookupS (p :: tl) t = some p.2 by simp [lookupS, hp], hv,
          hstep, habsent]
        rfl
      | some v =>
        have hstep : lookupS (seriesDivDrop (p :: tl) n) t = some (v / (n : ℚ)) := by
          simp [seriesDivDrop, hv, List.filterMap_cons, lookupS, hp]
        rw [show lookupS (p :: tl) t = some p.2 by simp [lookupS, hp], hv, hstep]
        rfl
    · rw [show lookupS (p :: tl) t = lookupS tl t by simp [lookupS, hp]]
      have hstep : lookupS (seriesDivDrop (p :: tl) n) t =
          lookupS (seriesDivDrop tl n) t := by
        cases hv : p.2 with
        | none => simp [seriesDivDrop, hv, List.filterMap_cons]
        | some v => simp [seriesDivDrop, hv, List.filterMap_cons, lookupS, hp]
      rw [hstep]
      exact ih h' t

/-- Lifting a series into the portfolio accumulator preserves its keys. -/
theorem toP_keys (s : Series) : (toP s).map Prod.fst = s.map Prod.fst := by
  simp [toP]

/-- Lookup in the lifted copy of a series. -/
theorem lookupS_toP (s : Series) (t : ℤ) :
    lookupS (toP s) t = (lookupS s t).map some := by
  induction s with
  | nil => rfl
  | cons p tl ih =>
    by_cases hp : p.1 = t
    · simp [toP, lookupS, hp]
    · simp only [toP, List.map_cons, lookupS, if_neg hp]
      simpa [toP] using ih

/-- A NaN accumulator cell stays NaN through the whole portfolio fold. -/
theorem foldl_addAligned_absorb (os : List (Option ℚ)) :
    os.foldl (fun acc o => addAligned acc o) (some none) = some none := by
  induction os with
  | nil => rfl
  | cons o tl ih =>
    cases o <;> simpa [addAligned] using ih

/-- Folding defined cells onto a defined accumulator sums them; one missing
cell turns the result into NaN. -/
theorem foldl_addAligned_someSome (os : List (Option ℚ)) :
    ∀ v : ℚ, os.foldl (fun acc o => addAligned acc o) (some (some v)) =
      if ∀ o ∈ os, o.isSome then
        some (some (v + (os.map fun o => o.getD 0).sum))
      else some none := by
  induction os with
  | nil => intro v; simp
  | cons o tl ih =>
    intro v
    rw [List.foldl_cons]
    cases o with
    | none =>
      rw [show addAligned (some (some v)) none = some none from rfl,
        foldl_addAligned_absorb, if_neg (by simp)]
    | some w =>
      rw [show addAligned (some (some v)) (some w) = some (some (v + w)) from rfl,
        ih (v + w)]
      by_cases hall : ∀ o ∈ tl, o.isSome
      · rw [if_pos hall, if_pos (by simpa using hall)]
        simp [add_assoc]
      · rw [if_neg hall, if_neg (by simpa using hall)]
    
/-- A timestamp absent from the first instrument leaves the accumulator
cell missing or NaN however the fold continues. -/
theorem foldl_addAligned_fromNone (os : List (Option ℚ)) :
    os.foldl (fun acc o => addAligned acc o) none = none ∨
    os.foldl (fun acc o => addAligned acc o) none = some none := by
  induction os with
  | nil => exact Or.inl rfl
  | cons o tl ih =>
    cases o with
    | none =>
      rw [List.foldl_cons, show addAligned none none = (none : Option (Option ℚ)) from rfl]
      exact ih
    | some w =>
      rw [List.foldl_cons, show addAligned none (some w) = some none from rfl]
      exact Or.inr (foldl_addAligned_absorb tl)

/-- The per-instrument portfolio fold viewed over the list of looked-up
cells. -/
theorem foldl_addAligned_map (rest : List Series) (t : ℤ) :
    ∀ x : Option (Option ℚ),
      rest.foldl (fun acc s => addAligned acc (lookupS s t)) x =
        (rest.map fun s => lookupS s t).foldl (fun acc o => addAligned acc o) x := by
  induction rest with
  | nil => intro x; rfl
  | cons s tl ih =>
    intro x
    simp only [List.foldl_cons, List.map_cons]
    exact ih _

/-- C9: aggregating two instruments with identical equity series yields a
portfolio series equal to either series, with identical metrics; and in
general, for sorted per-instrument series, the portfolio series holds, at
exactly the timestamps present in every instrument's series, the
per-timestamp sum of the instrument equities divided by the instrument
count (and nothing anywhere else). -/
theorem c9_portfolio :
    (∀ (E : Series) (rf : ℚ),
      portfolioEquity [E, E] = E ∧
      equity_metrics (portfolioEquity [E, E]) rf = equity_metrics E rf) ∧
    (∀ ss : List Series, (∀ s ∈ ss, SortedKeys s) → ∀ t : ℤ,
      lookupS (portfolioEquity ss) t = portfolioSpecAt ss t) := by
  have hEE : ∀ E : Series, portfolioEquity [E, E] = E := by
    intro E
    show seriesDivDrop (mergeAdd (toP E) E) 2 = E
    rw [mergeAdd_toP_self]
    exact seriesDivDrop_double E
  constructor
  · intro E rf
    exact ⟨hEE E, by rw [hEE E]⟩
  · intro ss hss t
    cases ss with
    | nil => simp [portfolioEquity, portfolioSpecAt, lookupS]
    | cons s0 rest =>
      have hs0 : SortedKeys s0 := hss s0 (List.mem_cons_self s0 rest)
      have hrest : ∀ s ∈ rest, SortedKeys s := fun s hs =>
        hss s (List.mem_cons_of_mem s0 hs)
      have htop : SortedKeys (toP s0) := by
        simp only [SortedKeys, toP_keys]
        exact hs0
      obtain ⟨hsorted, hlook⟩ := foldl_mergeAdd_lookup rest (toP s0) htop hrest
      show lookupS (seriesDivDrop (rest.foldl mergeAdd (toP s0))
        (s0 :: rest).length) t = _
      rw [lookupS_seriesDivDrop _ _ hsorted t, hlook t, lookupS_toP,
        foldl_addAligned_map]
      cases h0 : lookupS s0 t with
      | none =>
        rw [Option.map_none']
        rcases foldl_addAligned_fromNone (rest.map fun s => lookupS s t) with hf | hf <;>
          rw [hf] <;> simp [portfolioSpecAt, h0]
      | some v0 =>
        rw [Option.map_some']
        rw [foldl_addAligned_someSome]
        by_cases hall : ∀ o ∈ rest.map fun s => lookupS s t, o.isSome
        · rw [if_pos hall]
          have hallr : ∀ s ∈ rest, (lookupS s t).isSome := fun s hs =>
            hall _ (List.mem_map_of_mem _ hs)
          have hcond : (s0 :: rest : List Series) ≠ [] ∧
              ∀ s ∈ s0 :: rest, (lookupS s t).isSome := by
            refine ⟨by simp, ?_⟩
            intro s hs
            rcases List.mem_cons.mp hs with rfl | hs
            · simp [h0]
            · exact hallr s hs
          simp only [portfolioSpecAt, Option.some_bind, Option.map_some',
            List.map_cons, List.sum_cons, h0, List.map_map, Option.some.injEq]
          rw [if_pos hcond]
          simp [Function.comp_def]
        · rw [if_neg hall]
          have hnall : ¬∀ s ∈ rest, (lookupS s t).isSome := by
            intro hp
            apply hall
            intro o ho
            obtain ⟨s, hs, rfl⟩ := List.mem_map.mp ho
            exact hp s hs
          simp [portfolioSpecAt, h0, hnall]

/-- Witness for `c9_portfolio`: two one-point instruments at the common
timestamp `0`. -/
theorem c9_portfolio_witness :
    lookupS (portfolioEquity [[((0 : ℤ), (1 : ℚ))], [(0, 3)]]) 0 =
      portfolioSpecAt [[((0 : ℤ), (1 : ℚ))], [(0, 3)]] 0 :=
  c9_portfolio.2 [[((0 : ℤ), (1 : ℚ))], [(0, 3)]]
    (by
      intro s hs
      rcases List.mem_cons.mp hs with rfl | hs
      · simp [SortedKeys]
      · rcases List.mem_cons.mp hs with rfl | hs
        · simp [SortedKeys]
        · simp at hs)
    0
